import Mathlib

/-!
Shallow embedding of the parity computation engine of
`scripts/diff_provider_versions.py`:

* `parse_date`   models the Python function `parse_date` (CPython
  `datetime.strptime(base, "%Y-%m-%d")` applied to the part of the token
  that stands before the first occurrence of the `"-preview"` marker);
  `none` models the raised `ValueError`.  The comparable temporal value is
  the proleptic-Gregorian ordinal day number (`toDays 1 1 1 = 1`, exactly
  Python's `datetime.toordinal`), which is order- and difference-isomorphic
  to the `datetime` values the source manipulates.
* `latest_version` models the Python function `latest_version`; a Python
  `set` is represented by the list of its elements in iteration order
  (CPython iteration order of a string set is hash-dependent, hence not a
  function of the set's contents).  `sorted(..., key=sort_key)` is a stable
  sort by key, modelled by `List.insertionSort keyLe`, which is stable.
* `mkRecord` models the body of the `for rtype in all_types` loop of
  `main`; `diffRecords` models the loop itself together with
  `all_types = sorted(set(pub_keys + gov_keys))`.
* `to_map` models the Python function `to_map`; the construction
  `set(item.get("apiVersions", []))` is modelled by an explicit
  `enum : List String → List String` oracle that chooses the iteration
  order of each constructed set (theorems hypothesise that `enum` yields a
  duplicate-free list with the same members).
-/

/-- Gregorian leap-year test, as in Python `datetime`. -/
def leapYear (y : Nat) : Bool :=
  y % 4 == 0 && (y % 100 != 0 || y % 400 == 0)

/-- Length of month `m` of year `y` in the proleptic Gregorian calendar. -/
def daysInMonth (y m : Nat) : Nat :=
  if m == 2 then (if leapYear y then 29 else 28)
  else if m == 4 || m == 6 || m == 9 || m == 11 then 30
  else 31

/-- Number of days in the years strictly before year `y` (for `y ≥ 1`). -/
def daysBeforeYear (y : Nat) : Nat :=
  let n := y - 1
  365 * n + n / 4 - n / 100 + n / 400

/-- Number of days of year `y` that lie in months strictly before month `m`. -/
def daysBeforeMonth (y : Nat) : Nat → Nat
  | 0 => 0
  | 1 => 0
  | m + 2 => daysBeforeMonth y (m + 1) + daysInMonth y (m + 1)

/-- Ordinal day number of the calendar date `y-m-d`; `toDays 1 1 1 = 1`,
exactly Python's `datetime.toordinal`. -/
def toDays (y m d : Nat) : Nat :=
  daysBeforeYear y + daysBeforeMonth y m + d

/-- Numeric value of a decimal digit character. -/
def dval (c : Char) : Nat := c.toNat - '0'.toNat

/-- ASCII decimal digit test (code points 48-57), the digits the `%Y`, `%m`
and `%d` fields of the source's format string consume. -/
def isDig (c : Char) : Bool := 48 ≤ c.toNat && c.toNat ≤ 57

/-- Model of the `%d` day component of CPython `strptime` standing at the end
of the input, including the final "unconverted data remains" check: the day
matches `3[0-1]|[1-2]\d|0[1-9]|[1-9]| [1-9]` and nothing may follow it. -/
def parseDayEnd : List Char → Option Nat
  | [a] =>
    if isDig a then (if 1 ≤ dval a then some (dval a) else none)
    else none
  | [a, b] =>
    if isDig a && isDig b then
      if 1 ≤ dval a * 10 + dval b && dval a * 10 + dval b ≤ 31 then
        some (dval a * 10 + dval b)
      else none
    else if a == ' ' && isDig b && 1 ≤ dval b then some (dval b)
    else none
  | _ => none

/-- Model of the `%m-%d` tail of CPython `strptime "%Y-%m-%d"`: the month
matches `1[0-2]|0[1-9]|[1-9]`, then a literal `-`, then the day.  Regex
backtracking never rescues a failed two-digit month here, because the
one-digit alternative would have to be followed by `-` where a digit stands. -/
def parseMDEnd : List Char → Option (Nat × Nat)
  | a :: b :: rest =>
    if isDig a then
      if isDig b then
        if 1 ≤ dval a * 10 + dval b && dval a * 10 + dval b ≤ 12 then
          match rest with
          | c :: ds =>
            if c = '-' then (parseDayEnd ds).map (fun d => (dval a * 10 + dval b, d))
            else none
          | [] => none
        else none
      else if b = '-' then
        if 1 ≤ dval a then (parseDayEnd rest).map (fun d => (dval a, d))
        else none
      else none
    else none
  | _ => none

/-- Model of CPython `strptime(base, "%Y-%m-%d")` shape matching: exactly four
year digits (`%Y` is `\d\d\d\d`), a literal `-`, then month and day. -/
def parseYMDChars : List Char → Option (Nat × Nat × Nat)
  | c1 :: c2 :: c3 :: c4 :: c5 :: rest =>
    if isDig c1 && isDig c2 && isDig c3 && isDig c4 then
      if c5 = '-' then
        (parseMDEnd rest).map
          (fun md => (((dval c1 * 10 + dval c2) * 10 + dval c3) * 10 + dval c4, md.1, md.2))
      else none
    else none
  | _ => none

/-- Whether `marker` occurs at the head of `cs`. -/
def matchesAt : List Char → List Char → Bool
  | [], _ => true
  | _ :: _, [] => false
  | m :: ms, c :: cs => m == c && matchesAt ms cs

/-- The `"-preview"` marker of `parse_date`. -/
def previewMarker : List Char := "-preview".toList

/-- Characters of the input before the first occurrence of `marker`; models
Python `s.split(marker)[0]`. -/
def takeBeforeMarker (marker : List Char) : List Char → List Char
  | [] => []
  | c :: cs => if matchesAt marker (c :: cs) then [] else c :: takeBeforeMarker marker cs

/-- Model of `parse_date` of `diff_provider_versions.py`: strip everything
from the first `"-preview"` on, then `strptime "%Y-%m-%d"`; the `datetime`
constructor additionally requires `1 ≤ year` and a day valid for the month.
`none` models the raised `ValueError`. -/
def parse_date (api_version : String) : Option Nat :=
  match parseYMDChars (takeBeforeMarker previewMarker api_version.toList) with
  | some (y, m, d) =>
    if 1 ≤ y && d ≤ daysInMonth y m then some (toDays y m d) else none
  | none => none

/-- Ordinal of `datetime.min`, i.e. of the date 0001-01-01. -/
def datetimeMin : Nat := toDays 1 1 1

/-- The `sort_key` closure of `latest_version`: the parsed date, or
`datetime.min` when parsing raises. -/
def sortKey (v : String) : Nat := (parse_date v).getD datetimeMin

/-- Comparison of version tokens by sort key, the order `sorted` uses. -/
def keyLe (a b : String) : Prop := sortKey a ≤ sortKey b

instance : DecidableRel keyLe := fun a b => Nat.decLe (sortKey a) (sortKey b)

instance : IsTotal String keyLe := ⟨fun a b => Nat.le_total (sortKey a) (sortKey b)⟩

instance : IsTrans String keyLe := ⟨fun _ _ _ h h' => Nat.le_trans h h'⟩

/-- Model of `latest_version`: `None` on the empty set, otherwise the last
element of the stable sort by `sort_key` of the set's elements in iteration
order.  The argument list is the iteration order of the Python set. -/
def latest_version (versions_set : List String) : Option String :=
  match versions_set with
  | [] => none
  | _ :: _ => (List.insertionSort keyLe versions_set).getLast?

/-- Strict code-point lexicographic order on strings: Python's `<` on
strings compares code points lexicographically, which is the lexicographic
extension of `<` on the character data. -/
def lexLt (a b : String) : Prop := List.Lex (· < ·) a.data b.data

/-- The corresponding reflexive order, the order Python `sorted` sorts
strings into. -/
def lexLe (a b : String) : Prop := ¬ lexLt b a

instance : DecidableRel lexLt := fun a b =>
  inferInstanceAs (Decidable (List.Lex (· < ·) a.data b.data))

instance : DecidableRel lexLe := fun a b =>
  inferInstanceAs (Decidable ¬ lexLt b a)

instance : IsTotal String lexLe := by
  constructor
  intro a b
  by_cases h : lexLt b a
  · right
    intro h'
    exact asymm (show List.Lex (· < ·) b.data a.data from h)
      (show List.Lex (· < ·) a.data b.data from h')
  · left
    exact h

instance : IsTrans String lexLe := by
  constructor
  intro a b c hab hbc hca
  rcases lt_trichotomy b.data c.data with h | h | h
  · exact hab (show List.Lex (· < ·) b.data a.data from
      lt_trans h (show c.data < a.data from hca))
  · apply hab
    show List.Lex (· < ·) b.data a.data
    rw [h]
    exact hca
  · exact hbc h

/-- Ascending lexicographic sort of strings, Python `sorted` on strings. -/
def sortedStrings (l : List String) : List String :=
  List.insertionSort lexLe l

/-- Python truthiness of `latest_pub`/`latest_gov` in
`if latest_pub and latest_gov:` — `None` and the empty string are falsy. -/
def pyTruthy : Option String → Bool
  | none => false
  | some s => s != ""

/-- One output row of the Differ, the fields of the dictionary appended to
`results["resourceTypeDiffs"]`. -/
structure ParityRecord where
  resourceType : String
  latestPublic : Option String
  latestGov : Option String
  lagDaysPublicAhead : Option Int
  missingInGov : List String
  missingInPublic : List String
  status : String
deriving DecidableEq, Repr

/-- Body of the `for rtype in all_types` loop of `main`, for one resource
type: set differences, latest per side, lag, status. -/
def mkRecord (rtype : String) (pub_versions gov_versions : List String) : ParityRecord :=
  let missing_in_gov := sortedStrings (pub_versions.filter (fun v => v ∉ gov_versions))
  let missing_in_public := sortedStrings (gov_versions.filter (fun v => v ∉ pub_versions))
  let latest_pub := latest_version pub_versions
  let latest_gov := latest_version gov_versions
  let lag_days : Option Int :=
    if pyTruthy latest_pub && pyTruthy latest_gov then
      match parse_date (latest_pub.getD ""), parse_date (latest_gov.getD "") with
      | some dp, some dg => some ((dp : Int) - (dg : Int))
      | _, _ => none
    else none
  let status :=
    if !missing_in_gov.isEmpty then "PublicAhead"
    else if !missing_in_public.isEmpty then "GovAhead"
    else "Aligned"
  { resourceType := rtype, latestPublic := latest_pub, latestGov := latest_gov,
    lagDaysPublicAhead := lag_days, missingInGov := missing_in_gov,
    missingInPublic := missing_in_public, status := status }

/-- Dictionary lookup: `m[k]` as an optional value, by key equality, the
first (unique) binding of the key. -/
def mapLookup : List (String × List String) → String → Option (List String)
  | [], _ => none
  | (k', v') :: rest, k => if k' = k then some v' else mapLookup rest k

/-- `pub_map.get(rtype, set())`: dictionary lookup with empty-set default. -/
def lookupD (m : List (String × List String)) (k : String) : List String :=
  (mapLookup m k).getD []

/-- `all_types = sorted(set(list(pub_map.keys()) + list(gov_map.keys())))`. -/
def allTypes (pub_map gov_map : List (String × List String)) : List String :=
  sortedStrings ((pub_map.map Prod.fst ++ gov_map.map Prod.fst).dedup)

/-- The `for rtype in all_types` loop of `main`: the ordered sequence of
emitted parity records. -/
def diffRecords (pub_map gov_map : List (String × List String)) : List ParityRecord :=
  (allTypes pub_map gov_map).map
    (fun rtype => mkRecord rtype (lookupD pub_map rtype) (lookupD gov_map rtype))

/-- One element of `doc.get("resourceTypes", [])`: a resource-type name that
may be absent, and a version list. -/
structure RTEntry where
  resourceType : Option String
  apiVersions : List String
deriving DecidableEq, Repr

/-- Python `mapping[rtype] = versions`: replace the value of an existing key
in place, else append the new key at the end. -/
def upsert : List (String × List String) → String → List String → List (String × List String)
  | [], k, v => [(k, v)]
  | (k', v') :: rest, k, v =>
    if k' = k then (k, v) :: rest else (k', v') :: upsert rest k v

/-- One iteration of the loop of `to_map`: skip the entry when the name is
absent or empty (Python truthiness of `if rtype:`), else assign. -/
def toMapStep (enum : List String → List String) (mapping : List (String × List String))
    (item : RTEntry) : List (String × List String) :=
  match item.resourceType with
  | some rtype => if rtype ≠ "" then upsert mapping rtype (enum item.apiVersions) else mapping
  | none => mapping

/-- Model of `to_map`: fold the entries into a mapping; `enum` chooses the
iteration order of each `set(item.get("apiVersions", []))`. -/
def to_map (enum : List String → List String) (items : List RTEntry) :
    List (String × List String) :=
  items.foldl (toMapStep enum) []

/-- Characterisation of the stable-sort-last selection policy: scanning the
iteration order, a later element displaces the current winner exactly when
its sort key is at least the winner's — equivalently, the winner is the last
element in iteration order among those of maximal sort key. -/
def pickLatest : List String → Option String
  | [] => none
  | a :: rest =>
    match pickLatest rest with
    | none => some a
    | some b => if sortKey b < sortKey a then some a else some b

/-- Value of a digit string, most significant digit first. -/
def natOfDigits (cs : List Char) : Nat :=
  cs.foldl (fun n c => n * 10 + dval c) 0

/-- The spec's literal reading of §4.1: the leading component is exactly ten
characters `YYYY-MM-DD`, zero-padded, denoting a valid calendar date. -/
def isSpecYYYYMMDD (cs : List Char) : Bool :=
  match cs with
  | [y1, y2, y3, y4, s1, m1, m2, s2, d1, d2] =>
    isDig y1 && isDig y2 && isDig y3 && isDig y4 &&
    s1 == '-' && isDig m1 && isDig m2 && s2 == '-' && isDig d1 && isDig d2 &&
    (let y := natOfDigits [y1, y2, y3, y4]
     let m := natOfDigits [m1, m2]
     let d := natOfDigits [d1, d2]
     1 ≤ y && 1 ≤ m && m ≤ 12 && 1 ≤ d && d ≤ daysInMonth y m)
  | _ => false

/-- The calendar-date shapes `strptime "%Y-%m-%d"` actually accepts: a
four-digit year, a dash, a one- or two-digit month, a dash, and a one- or
two-digit (or space-then-digit) day, all denoting a valid calendar date. -/
def LiberalDate (cs : List Char) (y m d : Nat) : Prop :=
  ∃ ys ms ds : List Char,
    cs = ys ++ '-' :: (ms ++ '-' :: ds) ∧
    ys.length = 4 ∧ (∀ c ∈ ys, isDig c = true) ∧ y = natOfDigits ys ∧
    1 ≤ ms.length ∧ ms.length ≤ 2 ∧ (∀ c ∈ ms, isDig c = true) ∧ m = natOfDigits ms ∧
    ((1 ≤ ds.length ∧ ds.length ≤ 2 ∧ (∀ c ∈ ds, isDig c = true) ∧ d = natOfDigits ds) ∨
      (∃ c : Char, ds = [' ', c] ∧ isDig c = true ∧ d = dval c)) ∧
    1 ≤ y ∧ 1 ≤ m ∧ m ≤ 12 ∧ 1 ≤ d ∧ d ≤ daysInMonth y m

/-! Helper lemmas. -/

theorem parse_date_empty : parse_date "" = none := by decide

theorem datetimeMin_eq : datetimeMin = 1 := by decide

theorem parseDayEnd_pos {cs : List Char} {d : Nat} (h : parseDayEnd cs = some d) :
    1 ≤ d := by
  unfold parseDayEnd at h
  split at h
  · split at h
    · split at h
      · simp only [Option.some.injEq] at h
        omega
      · simp at h
    · simp at h
  · split at h
    · split at h
      · rename_i hcond
        simp only [Bool.and_eq_true, decide_eq_true_eq] at hcond
        simp only [Option.some.injEq] at h
        omega
      · simp at h
    · split at h
      · rename_i hcond
        simp only [Bool.and_eq_true, decide_eq_true_eq] at hcond
        simp only [Option.some.injEq] at h
        omega
      · simp at h
  · simp at h

theorem parseMDEnd_day_pos {cs : List Char} {m d : Nat} (h : parseMDEnd cs = some (m, d)) :
    1 ≤ d := by
  unfold parseMDEnd at h
  split at h
  · split at h
    · split at h
      · split at h
        · split at h
          · split at h
            · simp only [Option.map_eq_some'] at h
              obtain ⟨d', hd', heq⟩ := h
              simp only [Prod.mk.injEq] at heq
              obtain ⟨-, rfl⟩ := heq
              exact parseDayEnd_pos hd'
            · simp at h
          · simp at h
        · simp at h
      · split at h
        · split at h
          · simp only [Option.map_eq_some'] at h
            obtain ⟨d', hd', heq⟩ := h
            simp only [Prod.mk.injEq] at heq
            obtain ⟨-, rfl⟩ := heq
            exact parseDayEnd_pos hd'
          · simp at h
        · simp at h
    · simp at h
  · simp at h

theorem parseYMDChars_day_pos {cs : List Char} {y m d : Nat}
    (h : parseYMDChars cs = some (y, m, d)) : 1 ≤ d := by
  unfold parseYMDChars at h
  split at h
  · split at h
    · split at h
      · simp only [Option.map_eq_some'] at h
        obtain ⟨md, hmd, heq⟩ := h
        simp only [Prod.mk.injEq] at heq
        obtain ⟨-, -, rfl⟩ := heq
        exact parseMDEnd_day_pos (show parseMDEnd _ = some (md.1, md.2) from by
          rw [hmd])
      · simp at h
    · simp at h
  · simp at h

theorem parse_date_min {s : String} {n : Nat} (h : parse_date s = some n) :
    datetimeMin ≤ n := by
  unfold parse_date at h
  split at h
  · rename_i y m d hymd
    split at h
    · simp only [Option.some.injEq] at h
      have hd : 1 ≤ d := parseYMDChars_day_pos hymd
      rw [datetimeMin_eq, ← h]
      unfold toDays
      omega
    · simp at h
  · simp at h

theorem sortKey_ge_min (v : String) : datetimeMin ≤ sortKey v := by
  unfold sortKey
  cases hv : parse_date v with
  | none => simp
  | some n => simpa using parse_date_min hv

theorem sortKey_of_parse {v : String} {n : Nat} (h : parse_date v = some n) :
    sortKey v = n := by
  unfold sortKey
  rw [h]
  rfl

theorem sortKey_of_fail {v : String} (h : parse_date v = none) :
    sortKey v = datetimeMin := by
  unfold sortKey
  rw [h]
  rfl

theorem parse_date_ne_empty {v : String} {n : Nat} (h : parse_date v = some n) : v ≠ "" := by
  intro hv
  rw [hv, parse_date_empty] at h
  exact absurd h (by simp)

theorem pickLatest_cons (a : String) (rest : List String) :
    pickLatest (a :: rest) = match pickLatest rest with
      | none => some a
      | some b => if sortKey b < sortKey a then some a else some b := rfl

theorem pickLatest_eq_none {l : List String} : pickLatest l = none ↔ l = [] := by
  cases l with
  | nil => simp [pickLatest]
  | cons a rest =>
    rw [pickLatest_cons]
    cases h : pickLatest rest with
    | none => simp
    | some b =>
      simp only []
      split <;> simp

theorem pickLatest_mem {l : List String} {v : String} (h : pickLatest l = some v) :
    v ∈ l := by
  induction l with
  | nil => simp [pickLatest] at h
  | cons a rest ih =>
    rw [pickLatest_cons] at h
    cases hr : pickLatest rest with
    | none =>
      rw [hr] at h
      simp only [Option.some.injEq] at h
      subst h
      exact List.mem_cons_self a rest
    | some b =>
      rw [hr] at h
      simp only [] at h
      split at h <;> simp only [Option.some.injEq] at h <;> subst h
      · exact List.mem_cons_self a rest
      · exact List.mem_cons_of_mem a (ih hr)

theorem pickLatest_max : ∀ {l : List String} {v : String}, pickLatest l = some v →
    ∀ w ∈ l, sortKey w ≤ sortKey v := by
  intro l
  induction l with
  | nil => intro v h; simp [pickLatest] at h
  | cons a rest ih =>
    intro v h
    rw [pickLatest_cons] at h
    cases hr : pickLatest rest with
    | none =>
      rw [hr] at h
      simp only [Option.some.injEq] at h
      subst h
      have hnil : rest = [] := pickLatest_eq_none.mp hr
      subst hnil
      intro w hw
      simp only [List.mem_singleton] at hw
      subst hw
      exact Nat.le_refl _
    | some b =>
      rw [hr] at h
      simp only [] at h
      intro w hw
      rcases List.mem_cons.mp hw with rfl | hw'
      · split at h <;> simp only [Option.some.injEq] at h <;> subst h
        · exact Nat.le_refl _
        · rename_i hnlt
          exact Nat.le_of_not_lt hnlt
      · split at h <;> simp only [Option.some.injEq] at h <;> subst h
        · rename_i hlt
          exact Nat.le_of_lt (Nat.lt_of_le_of_lt (ih hr w hw') hlt)
        · exact ih hr w hw'

theorem orderedInsert_ne_nil (a : String) (s : List String) :
    List.orderedInsert keyLe a s ≠ [] := by
  intro hcontra
  have hlen := List.orderedInsert_length (r := keyLe) s a
  rw [hcontra] at hlen
  simp at hlen

theorem getLast?_cons_of_ne_nil {α : Type} (a : α) {l : List α} (h : l ≠ []) :
    (a :: l).getLast? = l.getLast? := by
  cases l with
  | nil => exact absurd rfl h
  | cons b t => rfl

theorem getLast?_orderedInsert_of_all_lt {a : String} {s : List String}
    (hall : ∀ b ∈ s, sortKey b < sortKey a) :
    (List.orderedInsert keyLe a s).getLast? = some a := by
  induction s with
  | nil => rfl
  | cons b s ih =>
    rw [List.orderedInsert]
    have hba : sortKey b < sortKey a := hall b (List.mem_cons_self b s)
    rw [if_neg (show ¬ keyLe a b from Nat.not_le_of_lt hba)]
    rw [getLast?_cons_of_ne_nil b (orderedInsert_ne_nil a s)]
    exact ih (fun c hc => hall c (List.mem_cons_of_mem b hc))

theorem getLast?_orderedInsert_of_exists_ge {a : String} {s : List String}
    (hex : ∃ b ∈ s, sortKey a ≤ sortKey b) :
    (List.orderedInsert keyLe a s).getLast? = s.getLast? := by
  induction s with
  | nil =>
    obtain ⟨b, hb, -⟩ := hex
    exact absurd hb (List.not_mem_nil b)
  | cons b s ih =>
    rw [List.orderedInsert]
    by_cases hab : keyLe a b
    · rw [if_pos hab]
      rfl
    · rw [if_neg hab]
      have hex' : ∃ c ∈ s, sortKey a ≤ sortKey c := by
        obtain ⟨c, hc, hac⟩ := hex
        rcases List.mem_cons.mp hc with rfl | hc'
        · exact absurd hac hab
        · exact ⟨c, hc', hac⟩
      have hsne : s ≠ [] := by
        obtain ⟨c, hc, -⟩ := hex'
        exact List.ne_nil_of_mem hc
      rw [getLast?_cons_of_ne_nil b (orderedInsert_ne_nil a s),
        getLast?_cons_of_ne_nil b hsne]
      exact ih hex'

theorem getLast?_insertionSort_eq_pick (l : List String) :
    (List.insertionSort keyLe l).getLast? = pickLatest l := by
  induction l with
  | nil => rfl
  | cons a rest ih =>
    rw [List.insertionSort]
    cases hr : pickLatest rest with
    | none =>
      have hnil : rest = [] := pickLatest_eq_none.mp hr
      subst hnil
      rfl
    | some b =>
      by_cases hall : ∀ c ∈ rest, sortKey c < sortKey a
      · have h1 : ∀ c ∈ List.insertionSort keyLe rest, sortKey c < sortKey a :=
          fun c hc => hall c ((List.mem_insertionSort keyLe).mp hc)
        rw [getLast?_orderedInsert_of_all_lt h1]
        have hb : sortKey b < sortKey a := hall b (pickLatest_mem hr)
        rw [pickLatest_cons, hr]
        simp only []
        rw [if_pos hb]
      · push_neg at hall
        obtain ⟨c, hc, hac⟩ := hall
        have hex : ∃ c ∈ List.insertionSort keyLe rest, sortKey a ≤ sortKey c :=
          ⟨c, (List.mem_insertionSort keyLe).mpr hc, hac⟩
        rw [getLast?_orderedInsert_of_exists_ge hex, ih, hr]
        have hnlt : ¬ sortKey b < sortKey a := by
          have := pickLatest_max hr c hc
          omega
        rw [pickLatest_cons, hr]
        simp only []
        rw [if_neg hnlt]

theorem latest_eq_pick (l : List String) : latest_version l = pickLatest l := by
  cases l with
  | nil => rfl
  | cons a rest =>
    show (List.insertionSort keyLe (a :: rest)).getLast? = _
    exact getLast?_insertionSort_eq_pick (a :: rest)

theorem latest_mem {l : List String} {v : String} (h : latest_version l = some v) :
    v ∈ l :=
  pickLatest_mem (by rw [← latest_eq_pick l]; exact h)

theorem latest_max {l : List String} {v : String} (h : latest_version l = some v) :
    ∀ w ∈ l, sortKey w ≤ sortKey v :=
  pickLatest_max (by rw [← latest_eq_pick l]; exact h)

theorem latest_isSome {l : List String} (h : l ≠ []) :
    ∃ v, latest_version l = some v := by
  rw [latest_eq_pick]
  cases hl : pickLatest l with
  | none => exact absurd (pickLatest_eq_none.mp hl) h
  | some v => exact ⟨v, rfl⟩

theorem sortedStrings_perm (l : List String) : List.Perm (sortedStrings l) l :=
  List.perm_insertionSort lexLe l

theorem mem_sortedStrings {l : List String} {v : String} :
    v ∈ sortedStrings l ↔ v ∈ l :=
  (sortedStrings_perm l).mem_iff

theorem sortedStrings_sorted (l : List String) : List.Sorted lexLe (sortedStrings l) :=
  List.sorted_insertionSort lexLe l

theorem sortedStrings_nodup {l : List String} (h : l.Nodup) : (sortedStrings l).Nodup :=
  ((sortedStrings_perm l).nodup_iff).mpr h

theorem string_data_inj {a b : String} (h : a.data = b.data) : a = b := by
  cases a
  cases b
  exact congrArg String.mk h

theorem lexLe_lt_of_ne {a b : String} (hle : lexLe a b) (hne : a ≠ b) : lexLt a b := by
  rcases lt_trichotomy a.data b.data with h | h | h
  · exact (show List.Lex (· < ·) a.data b.data from h)
  · exact absurd (string_data_inj h) hne
  · exact absurd (show lexLt b a from h) hle

theorem sortedStrings_sorted_lt {l : List String} (h : l.Nodup) :
    List.Sorted lexLt (sortedStrings l) :=
  (sortedStrings_sorted l).imp₂ (fun _ _ hab hne => lexLe_lt_of_ne hab hne)
    (sortedStrings_nodup h)

theorem sortedStrings_eq_nil {l : List String} : sortedStrings l = [] ↔ l = [] := by
  constructor
  · intro h
    have hp := sortedStrings_perm l
    rw [h] at hp
    exact hp.symm.eq_nil
  · intro h
    subst h
    rfl

theorem mem_filter_not_mem {P G : List String} {v : String} :
    v ∈ P.filter (fun x => x ∉ G) ↔ v ∈ P ∧ v ∉ G := by
  simp [List.mem_filter]

theorem mkRecord_resourceType (t : String) (P G : List String) :
    (mkRecord t P G).resourceType = t := rfl

theorem mkRecord_latestPublic (t : String) (P G : List String) :
    (mkRecord t P G).latestPublic = latest_version P := rfl

theorem mkRecord_latestGov (t : String) (P G : List String) :
    (mkRecord t P G).latestGov = latest_version G := rfl

theorem mkRecord_missingInGov (t : String) (P G : List String) :
    (mkRecord t P G).missingInGov = sortedStrings (P.filter (fun v => v ∉ G)) := rfl

theorem mkRecord_missingInPublic (t : String) (P G : List String) :
    (mkRecord t P G).missingInPublic = sortedStrings (G.filter (fun v => v ∉ P)) := rfl

theorem mkRecord_status (t : String) (P G : List String) :
    (mkRecord t P G).status =
      if !(mkRecord t P G).missingInGov.isEmpty then "PublicAhead"
      else if !(mkRecord t P G).missingInPublic.isEmpty then "GovAhead"
      else "Aligned" := rfl

theorem mkRecord_lag (t : String) (P G : List String) :
    (mkRecord t P G).lagDaysPublicAhead =
      if pyTruthy (latest_version P) && pyTruthy (latest_version G) then
        match parse_date ((latest_version P).getD ""), parse_date ((latest_version G).getD "") with
        | some dp, some dg => some ((dp : Int) - (dg : Int))
        | _, _ => none
      else none := rfl

theorem mem_diffRecords {pub gov : List (String × List String)} {r : ParityRecord}
    (h : r ∈ diffRecords pub gov) :
    r = mkRecord r.resourceType (lookupD pub r.resourceType) (lookupD gov r.resourceType) := by
  unfold diffRecords at h
  obtain ⟨t, -, rfl⟩ := List.mem_map.mp h
  rfl

theorem mkRecord_lag_of_parse {t : String} {P G : List String} {p g : String} {dp dg : Nat}
    (hp : latest_version P = some p) (hg : latest_version G = some g)
    (hdp : parse_date p = some dp) (hdg : parse_date g = some dg) :
    (mkRecord t P G).lagDaysPublicAhead = some ((dp : Int) - (dg : Int)) := by
  rw [mkRecord_lag, hp, hg]
  have hp' : p ≠ "" := parse_date_ne_empty hdp
  have hg' : g ≠ "" := parse_date_ne_empty hdg
  have ht : (pyTruthy (some p) && pyTruthy (some g)) = true := by
    simp [pyTruthy, hp', hg']
  rw [ht]
  simp only [if_true, Option.getD_some]
  rw [hdp, hdg]

theorem mapLookup_upsert (m : List (String × List String)) (k k' : String) (v : List String) :
    mapLookup (upsert m k v) k' = if k' = k then some v else mapLookup m k' := by
  induction m with
  | nil =>
    by_cases h : k' = k
    · subst h
      simp [upsert, mapLookup]
    · simp [upsert, mapLookup, h, Ne.symm h]
  | cons p rest ih =>
    obtain ⟨k0, v0⟩ := p
    rw [upsert]
    by_cases h0 : k0 = k
    · subst h0
      rw [if_pos (by trivial)]
      by_cases h : k' = k0
      · subst h
        simp [mapLookup]
      · simp [mapLookup, Ne.symm h, h]
    · rw [if_neg h0]
      by_cases h : k' = k0
      · subst h
        simp [mapLookup, h0]
      · simp only [mapLookup, if_neg (fun hc => h (Eq.symm hc)), ih]

theorem mapLookup_toMapStep_of_ne {enum : List String → List String}
    {m : List (String × List String)} {it : RTEntry} {k : String}
    (h : it.resourceType ≠ some k) :
    mapLookup (toMapStep enum m it) k = mapLookup m k := by
  unfold toMapStep
  cases hrt : it.resourceType with
  | none => rfl
  | some rt =>
    simp only []
    by_cases hrt0 : rt ≠ ""
    · rw [if_pos hrt0, mapLookup_upsert]
      rw [if_neg (show ¬ k = rt from fun hc => h (by rw [hrt, hc]))]
    · rw [if_neg hrt0]

theorem mapLookup_toMapStep_of_eq {enum : List String → List String}
    {m : List (String × List String)} {it : RTEntry} {k : String}
    (h : it.resourceType = some k) (hk : k ≠ "") :
    mapLookup (toMapStep enum m it) k = some (enum it.apiVersions) := by
  unfold toMapStep
  rw [h]
  simp only []
  rw [if_pos hk, mapLookup_upsert, if_pos rfl]

theorem getLast?_ne_none_of_cons {α : Type} (a : α) (l : List α) :
    (a :: l).getLast? ≠ none := by
  induction l generalizing a with
  | nil => simp [List.getLast?]
  | cons b t ih =>
    rw [List.getLast?_cons_cons]
    exact ih b

theorem to_map_go (enum : List String → List String) (k : String) (hk : k ≠ "") :
    ∀ (items : List RTEntry) (m : List (String × List String)),
    mapLookup (items.foldl (toMapStep enum) m) k =
      match (items.filter (fun it => it.resourceType == some k)).getLast? with
      | some it => some (enum it.apiVersions)
      | none => mapLookup m k := by
  intro items
  induction items with
  | nil => intro m; rfl
  | cons it rest ih =>
    intro m
    rw [List.foldl_cons, ih (toMapStep enum m it), List.filter_cons]
    by_cases hfil : (it.resourceType == some k) = true
    · rw [if_pos hfil]
      cases hrest : (rest.filter (fun it => it.resourceType == some k)).getLast? with
      | some it2 =>
        have hne : rest.filter (fun it => it.resourceType == some k) ≠ [] := by
          intro hc
          rw [hc] at hrest
          simp at hrest
        rw [getLast?_cons_of_ne_nil it hne, hrest]
      | none =>
        have hnil : rest.filter (fun it => it.resourceType == some k) = [] := by
          cases hl : rest.filter (fun it => it.resourceType == some k) with
          | nil => rfl
          | cons x xs =>
            rw [hl] at hrest
            exact absurd hrest (getLast?_ne_none_of_cons x xs)
        rw [hnil]
        show mapLookup (toMapStep enum m it) k = some (enum it.apiVersions)
        exact mapLookup_toMapStep_of_eq (by simpa using hfil) hk
    · rw [if_neg hfil]
      cases hrest : (rest.filter (fun it => it.resourceType == some k)).getLast? with
      | some it2 => rfl
      | none =>
        show mapLookup (toMapStep enum m it) k = mapLookup m k
        exact mapLookup_toMapStep_of_ne (by simpa using hfil)

theorem dval_le_of_isDig {c : Char} (h : isDig c = true) : dval c ≤ 9 := by
  simp only [isDig, Bool.and_eq_true, decide_eq_true_eq] at h
  have h0 : ('0' : Char).toNat = 48 := rfl
  unfold dval
  omega

theorem natOfDigits_one (a : Char) : natOfDigits [a] = dval a := by
  simp [natOfDigits]

theorem natOfDigits_two (a b : Char) : natOfDigits [a, b] = dval a * 10 + dval b := by
  simp [natOfDigits]

theorem natOfDigits_four (a b c d : Char) :
    natOfDigits [a, b, c, d] = ((dval a * 10 + dval b) * 10 + dval c) * 10 + dval d := by
  simp [natOfDigits]

theorem daysInMonth_le_31 (y m : Nat) : daysInMonth y m ≤ 31 := by
  unfold daysInMonth
  split
  · split <;> omega
  · split <;> omega

theorem parseDayEnd_sound {ds : List Char} {d : Nat} (h : parseDayEnd ds = some d) :
    (1 ≤ ds.length ∧ ds.length ≤ 2 ∧ (∀ c ∈ ds, isDig c = true) ∧ d = natOfDigits ds) ∨
      (∃ c : Char, ds = [' ', c] ∧ isDig c = true ∧ d = dval c) := by
  unfold parseDayEnd at h
  split at h
  · rename_i a
    split at h
    · rename_i hdig
      split at h
      · simp only [Option.some.injEq] at h
        left
        refine ⟨by simp, by simp, ?_, ?_⟩
        · intro c hc
          simp only [List.mem_singleton] at hc
          subst hc
          exact hdig
        · rw [natOfDigits_one, h]
      · simp at h
    · simp at h
  · rename_i a b
    split at h
    · rename_i hdig
      simp only [Bool.and_eq_true] at hdig
      split at h
      · simp only [Option.some.injEq] at h
        left
        refine ⟨by simp, by simp, ?_, ?_⟩
        · intro c hc
          simp only [List.mem_cons, List.mem_singleton, List.not_mem_nil, or_false] at hc
          rcases hc with rfl | rfl
          · exact hdig.1
          · exact hdig.2
        · rw [natOfDigits_two, h]
      · simp at h
    · split at h
      · rename_i hsp
        simp only [Bool.and_eq_true, beq_iff_eq, decide_eq_true_eq] at hsp
        simp only [Option.some.injEq] at h
        obtain ⟨⟨ha, hb⟩, h1b⟩ := hsp
        right
        exact ⟨b, by rw [ha], hb, h.symm⟩
      · simp at h
  · simp at h

theorem parseDayEnd_le_31 {ds : List Char} {d : Nat} (h : parseDayEnd ds = some d) :
    d ≤ 31 := by
  unfold parseDayEnd at h
  split at h
  · rename_i a
    split at h
    · rename_i hdig
      split at h
      · simp only [Option.some.injEq] at h
        have := dval_le_of_isDig hdig
        omega
      · simp at h
    · simp at h
  · split at h
    · split at h
      · rename_i hcond
        simp only [Bool.and_eq_true, decide_eq_true_eq] at hcond
        simp only [Option.some.injEq] at h
        omega
      · simp at h
    · split at h
      · rename_i hsp
        simp only [Bool.and_eq_true, beq_iff_eq, decide_eq_true_eq] at hsp
        simp only [Option.some.injEq] at h
        have := dval_le_of_isDig hsp.1.2
        omega
      · simp at h
  · simp at h

theorem parseMDEnd_sound {cs : List Char} {m d : Nat} (h : parseMDEnd cs = some (m, d)) :
    ∃ ms ds : List Char, cs = ms ++ '-' :: ds ∧
      1 ≤ ms.length ∧ ms.length ≤ 2 ∧ (∀ c ∈ ms, isDig c = true) ∧ m = natOfDigits ms ∧
      1 ≤ m ∧ m ≤ 12 ∧ parseDayEnd ds = some d := by
  unfold parseMDEnd at h
  split at h
  · rename_i a b rest
    split at h
    · rename_i hda
      split at h
      · rename_i hdb
        split at h
        · rename_i hcond
          simp only [Bool.and_eq_true, decide_eq_true_eq] at hcond
          split at h
          · rename_i c0 ds2
            split at h
            · rename_i hdash
              subst hdash
              simp only [Option.map_eq_some'] at h
              obtain ⟨d', hd', heq⟩ := h
              simp only [Prod.mk.injEq] at heq
              obtain ⟨rfl, rfl⟩ := heq
              refine ⟨[a, b], ds2, by simp, by simp, by simp, ?_, ?_, ?_, ?_, hd'⟩
              · intro c hc
                simp only [List.mem_cons, List.mem_singleton, List.not_mem_nil, or_false] at hc
                rcases hc with rfl | rfl
                · exact hda
                · exact hdb
              · rw [natOfDigits_two]
              · omega
              · omega
            · simp at h
          · simp at h
        · simp at h
      · split at h
        · rename_i hbd
          subst hbd
          split at h
          · rename_i hge
            simp only [Option.map_eq_some'] at h
            obtain ⟨d', hd', heq⟩ := h
            simp only [Prod.mk.injEq] at heq
            obtain ⟨rfl, rfl⟩ := heq
            have h9 : dval a ≤ 9 := dval_le_of_isDig hda
            refine ⟨[a], rest, by simp, by simp, by simp, ?_, ?_, ?_, ?_, hd'⟩
            · intro c hc
              simp only [List.mem_singleton] at hc
              subst hc
              exact hda
            · rw [natOfDigits_one]
            · omega
            · omega
          · simp at h
        · simp at h
    · simp at h
  · simp at h

theorem parseYMDChars_sound {cs : List Char} {y m d : Nat}
    (h : parseYMDChars cs = some (y, m, d)) :
    ∃ ys rest : List Char, cs = ys ++ '-' :: rest ∧ ys.length = 4 ∧
      (∀ c ∈ ys, isDig c = true) ∧ y = natOfDigits ys ∧ parseMDEnd rest = some (m, d) := by
  unfold parseYMDChars at h
  split at h
  · rename_i c1 c2 c3 c4 c5 rest
    split at h
    · rename_i hdig
      simp only [Bool.and_eq_true] at hdig
      split at h
      · rename_i hdash
        subst hdash
        simp only [Option.map_eq_some'] at h
        obtain ⟨md, hmd, heq⟩ := h
        simp only [Prod.mk.injEq] at heq
        obtain ⟨rfl, rfl, rfl⟩ := heq
        refine ⟨[c1, c2, c3, c4], rest, by simp, by simp, ?_, ?_, ?_⟩
        · intro c hc
          simp only [List.mem_cons, List.mem_singleton, List.not_mem_nil, or_false] at hc
          rcases hc with rfl | rfl | rfl | rfl
          · exact hdig.1.1.1
          · exact hdig.1.1.2
          · exact hdig.1.2
          · exact hdig.2
        · rw [natOfDigits_four]
        · rw [hmd]
      · simp at h
    · simp at h
  · simp at h

theorem parse_date_sound {s : String} {n : Nat} (h : parse_date s = some n) :
    ∃ y m d : Nat, LiberalDate (takeBeforeMarker previewMarker s.toList) y m d ∧
      n = toDays y m d := by
  unfold parse_date at h
  split at h
  · rename_i y m d hymd
    split at h
    · rename_i hcond
      simp only [Bool.and_eq_true, decide_eq_true_eq] at hcond
      simp only [Option.some.injEq] at h
      obtain ⟨ys, rest, hcs, hlen, hdig, hy, hmd⟩ := parseYMDChars_sound hymd
      obtain ⟨ms, ds, hrest, hm1, hm2, hmdig, hmval, hmlo, hmhi, hday⟩ := parseMDEnd_sound hmd
      have hd1 : 1 ≤ d := parseDayEnd_pos hday
      refine ⟨y, m, d, ⟨ys, ms, ds, ?_, hlen, hdig, hy, hm1, hm2, hmdig, hmval, ?_,
        hcond.1, hmlo, hmhi, hd1, hcond.2⟩, h.symm⟩
      · rw [hcs, hrest]
      · rcases parseDayEnd_sound hday with ⟨hds1, hds2, hddig, hdval⟩ | ⟨c, hdsc, hcdig, hdval⟩
        · exact Or.inl ⟨hds1, hds2, hddig, hdval⟩
        · exact Or.inr ⟨c, hdsc, hcdig, hdval⟩
    · simp at h
  · simp at h

theorem parseDayEnd_complete_digits {ds : List Char} {d : Nat}
    (h1 : 1 ≤ ds.length) (h2 : ds.length ≤ 2) (hdig : ∀ c ∈ ds, isDig c = true)
    (hval : d = natOfDigits ds) (hd1 : 1 ≤ d) (hd31 : d ≤ 31) :
    parseDayEnd ds = some d := by
  rcases ds with _ | ⟨a, _ | ⟨b, _ | ⟨c, t⟩⟩⟩
  · simp at h1
  · rw [natOfDigits_one] at hval
    simp only [parseDayEnd]
    rw [if_pos (hdig a (by simp)), if_pos (show 1 ≤ dval a by omega)]
    rw [hval]
  · rw [natOfDigits_two] at hval
    simp only [parseDayEnd]
    rw [if_pos (by simp [hdig a (by simp), hdig b (by simp)])]
    rw [if_pos (by
      simp only [Bool.and_eq_true, decide_eq_true_eq]
      constructor <;> omega)]
    rw [hval]
  · simp at h2

theorem parseDayEnd_complete_space {c : Char} {d : Nat}
    (hdig : isDig c = true) (hval : d = dval c) (hd1 : 1 ≤ d) :
    parseDayEnd [' ', c] = some d := by
  have hsp : isDig ' ' = false := by decide
  simp only [parseDayEnd]
  rw [if_neg (by simp [hsp])]
  rw [if_pos (by
    simp only [Bool.and_eq_true, beq_self_eq_true, true_and, decide_eq_true_eq]
    exact ⟨hdig, by omega⟩)]
  rw [hval]

theorem parseMDEnd_complete {ms ds : List Char} {m d : Nat}
    (hm1 : 1 ≤ ms.length) (hm2 : ms.length ≤ 2) (hdig : ∀ c ∈ ms, isDig c = true)
    (hval : m = natOfDigits ms) (hmlo : 1 ≤ m) (hmhi : m ≤ 12)
    (hday : parseDayEnd ds = some d) :
    parseMDEnd (ms ++ '-' :: ds) = some (m, d) := by
  have hdashnotdig : isDig '-' = false := by decide
  rcases ms with _ | ⟨a, _ | ⟨b, _ | ⟨c, t⟩⟩⟩
  · simp at hm1
  · rw [natOfDigits_one] at hval
    show parseMDEnd (a :: '-' :: ds) = some (m, d)
    simp only [parseMDEnd]
    rw [if_pos (hdig a (by simp))]
    rw [if_neg (by simp [hdashnotdig])]
    rw [if_pos (by trivial)]
    rw [if_pos (show 1 ≤ dval a by omega)]
    rw [hday]
    simp only [Option.map_some']
    rw [hval]
  · rw [natOfDigits_two] at hval
    show parseMDEnd (a :: b :: '-' :: ds) = some (m, d)
    simp only [parseMDEnd]
    rw [if_pos (hdig a (by simp)), if_pos (hdig b (by simp))]
    rw [if_pos (by
      simp only [Bool.and_eq_true, decide_eq_true_eq]
      constructor <;> omega)]
    rw [if_pos (by trivial)]
    rw [hday]
    simp only [Option.map_some']
    rw [hval]
  · simp at hm2

theorem parseYMDChars_complete {y1 y2 y3 y4 : Char} {rest : List Char} {m d : Nat}
    (h1 : isDig y1 = true) (h2 : isDig y2 = true) (h3 : isDig y3 = true) (h4 : isDig y4 = true)
    (hmd : parseMDEnd rest = some (m, d)) :
    parseYMDChars (y1 :: y2 :: y3 :: y4 :: '-' :: rest) =
      some (natOfDigits [y1, y2, y3, y4], m, d) := by
  simp only [parseYMDChars]
  rw [if_pos (by simp [h1, h2, h3, h4])]
  rw [if_pos (by trivial)]
  rw [hmd]
  simp [natOfDigits_four]

theorem parse_date_complete {s : String} {y m d : Nat}
    (h : LiberalDate (takeBeforeMarker previewMarker s.toList) y m d) :
    parse_date s = some (toDays y m d) := by
  obtain ⟨ys, ms, ds, hcs, hylen, hydig, hyval, hm1, hm2, hmdig, hmval, hds, hy1, hmlo,
    hmhi, hd1, hdm⟩ := h
  have hday : parseDayEnd ds = some d := by
    rcases hds with ⟨hd1l, hd2l, hddig, hdval⟩ | ⟨c, rfl, hcdig, hdval⟩
    · exact parseDayEnd_complete_digits hd1l hd2l hddig hdval hd1
        (Nat.le_trans hdm (daysInMonth_le_31 y m))
    · exact parseDayEnd_complete_space hcdig hdval hd1
  have hmd : parseMDEnd (ms ++ '-' :: ds) = some (m, d) :=
    parseMDEnd_complete hm1 hm2 hmdig hmval hmlo hmhi hday
  rcases ys with _ | ⟨a1, _ | ⟨a2, _ | ⟨a3, _ | ⟨a4, _ | ⟨a5, t⟩⟩⟩⟩⟩ <;>
    simp only [List.length] at hylen <;> try omega
  unfold parse_date
  rw [hcs]
  simp only [List.cons_append, List.nil_append]
  rw [parseYMDChars_complete (hydig a1 (by simp)) (hydig a2 (by simp)) (hydig a3 (by simp))
    (hydig a4 (by simp)) hmd]
  rw [← hyval]
  simp only []
  rw [if_pos (by
    simp only [Bool.and_eq_true, decide_eq_true_eq]
    exact ⟨hy1, hdm⟩)]

theorem isEmpty_false_of_ne_nil {α : Type} {l : List α} (h : l ≠ []) :
    l.isEmpty = false := by
  cases l with
  | nil => exact absurd rfl h
  | cons a t => rfl

theorem status_cases (t : String) (P G : List String) :
    ((mkRecord t P G).missingInGov ≠ [] ∧ (mkRecord t P G).status = "PublicAhead") ∨
    ((mkRecord t P G).missingInGov = [] ∧ (mkRecord t P G).missingInPublic ≠ [] ∧
      (mkRecord t P G).status = "GovAhead") ∨
    ((mkRecord t P G).missingInGov = [] ∧ (mkRecord t P G).missingInPublic = [] ∧
      (mkRecord t P G).status = "Aligned") := by
  by_cases h1 : (mkRecord t P G).missingInGov = []
  · by_cases h2 : (mkRecord t P G).missingInPublic = []
    · right
      right
      refine ⟨h1, h2, ?_⟩
      rw [mkRecord_status, h1, h2]
      rfl
    · right
      left
      refine ⟨h1, h2, ?_⟩
      rw [mkRecord_status, h1, isEmpty_false_of_ne_nil h2]
      rfl
  · left
    refine ⟨h1, ?_⟩
    rw [mkRecord_status, isEmpty_false_of_ne_nil h1]
    rfl

theorem mkRecord_lag_some_iff (t : String) (P G : List String) (z : Int) :
    (mkRecord t P G).lagDaysPublicAhead = some z ↔
      ∃ p g dp dg, latest_version P = some p ∧ latest_version G = some g ∧
        parse_date p = some dp ∧ parse_date g = some dg ∧
        z = (dp : Int) - (dg : Int) := by
  constructor
  · intro h
    rw [mkRecord_lag] at h
    split at h
    · rename_i htr
      split at h
      · rename_i dp dg hdp hdg
        simp only [Option.some.injEq] at h
        cases hp : latest_version P with
        | none =>
          rw [hp] at htr
          simp [pyTruthy] at htr
        | some p =>
          cases hg : latest_version G with
          | none =>
            rw [hg] at htr
            simp [pyTruthy] at htr
          | some g =>
            rw [hp, Option.getD_some] at hdp
            rw [hg, Option.getD_some] at hdg
            exact ⟨p, g, dp, dg, rfl, rfl, hdp, hdg, h.symm⟩
      · simp at h
    · simp at h
  · rintro ⟨p, g, dp, dg, hp, hg, hdp, hdg, rfl⟩
    exact mkRecord_lag_of_parse hp hg hdp hdg

theorem mkRecord_lag_none_iff (t : String) (P G : List String) :
    (mkRecord t P G).lagDaysPublicAhead = none ↔
      ¬ ∃ p g dp dg, latest_version P = some p ∧ latest_version G = some g ∧
        parse_date p = some dp ∧ parse_date g = some dg := by
  constructor
  · intro h hex
    obtain ⟨p, g, dp, dg, hp, hg, hdp, hdg⟩ := hex
    rw [mkRecord_lag_of_parse hp hg hdp hdg] at h
    simp at h
  · intro hne
    cases hl : (mkRecord t P G).lagDaysPublicAhead with
    | none => rfl
    | some z =>
      obtain ⟨p, g, dp, dg, hp, hg, hdp, hdg, -⟩ := (mkRecord_lag_some_iff t P G z).mp hl
      exact absurd ⟨p, g, dp, dg, hp, hg, hdp, hdg⟩ hne

theorem getLast?_mem {α : Type} {l : List α} {a : α} (h : l.getLast? = some a) :
    a ∈ l := by
  induction l with
  | nil => simp [List.getLast?] at h
  | cons b t ih =>
    cases t with
    | nil =>
      simp [List.getLast?] at h
      subst h
      exact List.mem_singleton_self b
    | cons c t2 =>
      rw [List.getLast?_cons_cons] at h
      exact List.mem_cons_of_mem b (ih h)

theorem diffRecords_types (pub gov : List (String × List String)) :
    (diffRecords pub gov).map (fun r => r.resourceType) = allTypes pub gov := by
  unfold diffRecords
  rw [List.map_map]
  exact List.map_id _

theorem isSpec_parse {s : String}
    (h : isSpecYYYYMMDD (takeBeforeMarker previewMarker s.toList) = true) :
    parse_date s ≠ none := by
  unfold isSpecYYYYMMDD at h
  split at h
  · rename_i y1 y2 y3 y4 s1 m1 m2 s2 d1 d2 heq
    simp only [Bool.and_eq_true, beq_iff_eq, decide_eq_true_eq] at h
    obtain ⟨⟨⟨⟨⟨⟨⟨⟨⟨⟨hy1, hy2⟩, hy3⟩, hy4⟩, hs1⟩, hm1⟩, hm2⟩, hs2⟩, hd1⟩, hd2⟩, hb⟩ := h
    obtain ⟨⟨⟨⟨hy, hmo⟩, hhi⟩, hdlo⟩, hdm⟩ := hb
    subst hs1
    subst hs2
    have hld : LiberalDate (takeBeforeMarker previewMarker s.toList)
        (natOfDigits [y1, y2, y3, y4]) (natOfDigits [m1, m2]) (natOfDigits [d1, d2]) := by
      refine ⟨[y1, y2, y3, y4], [m1, m2], [d1, d2], ?_, by simp, ?_, rfl,
        by simp, by simp, ?_, rfl, ?_, hy, hmo, hhi, hdlo, hdm⟩
      · rw [heq]
        simp
      · intro c hc
        simp only [List.mem_cons, List.mem_singleton, List.not_mem_nil, or_false] at hc
        rcases hc with rfl | rfl | rfl | rfl
        · exact hy1
        · exact hy2
        · exact hy3
        · exact hy4
      · intro c hc
        simp only [List.mem_cons, List.mem_singleton, List.not_mem_nil, or_false] at hc
        rcases hc with rfl | rfl
        · exact hm1
        · exact hm2
      · left
        refine ⟨by simp, by simp, ?_, rfl⟩
        intro c hc
        simp only [List.mem_cons, List.mem_singleton, List.not_mem_nil, or_false] at hc
        rcases hc with rfl | rfl
        · exact hd1
        · exact hd2
    intro hcontra
    rw [parse_date_complete hld] at hcontra
    simp at hcontra
  · simp at h

/-! Claim theorems. -/

/-- Claim C1, counterexample: on the version set containing `2024-01-01` and
`2024-01-01-preview` (two distinct tokens with the same date-prefix), when the
set iterates preview-first, `latest_version` returns `2024-01-01`, which is
lexically smaller than `2024-01-01-preview` — the tie is not broken by taking
the lexically greatest raw token. -/
theorem C1_counterexample :
    latest_version ["2024-01-01-preview", "2024-01-01"] = some "2024-01-01" ∧
    parse_date "2024-01-01" = parse_date "2024-01-01-preview" ∧
    ("2024-01-01" : String) ≠ "2024-01-01-preview" ∧
    lexLt "2024-01-01" "2024-01-01-preview" ∧
    ["2024-01-01-preview", "2024-01-01"].Nodup := by
  decide

/-- Claim C1, amended: for every version set, `latest_version` selects the
element whose parsed date-prefix is maximal; ties between distinct tokens
sharing the date-prefix are broken by the set's iteration order — the stable
sort keeps tied elements in iteration order, so the element occurring last in
iteration order among those of maximal key wins (`pickLatest`) — not by
lexical order of the raw token. -/
theorem C1_claim (l : List String) :
    latest_version l = pickLatest l ∧
    (∀ v, latest_version l = some v → v ∈ l ∧ ∀ w ∈ l, sortKey w ≤ sortKey v) :=
  ⟨latest_eq_pick l, fun _ hv => ⟨latest_mem hv, latest_max hv⟩⟩

/-- Claim C1, witness of the amended theorem at a concrete version set. -/
theorem C1_witness :
    latest_version ["2024-01-01", "2024-01-01-preview"] =
      pickLatest ["2024-01-01", "2024-01-01-preview"] :=
  (C1_claim ["2024-01-01", "2024-01-01-preview"]).1

/-- Claim C2: every emitted record has exactly one of the three statuses,
determined by the priority rule: `PublicAhead` iff `missingInGov` is
non-empty; else `GovAhead` iff `missingInPublic` is non-empty; else
`Aligned` — in particular `PublicAhead` wins when both lists are non-empty. -/
theorem C2_claim (pub gov : List (String × List String)) (r : ParityRecord)
    (h : r ∈ diffRecords pub gov) :
    (r.status = "PublicAhead" ∨ r.status = "GovAhead" ∨ r.status = "Aligned") ∧
    (r.status = "PublicAhead" ↔ r.missingInGov ≠ []) ∧
    (r.status = "GovAhead" ↔ r.missingInGov = [] ∧ r.missingInPublic ≠ []) ∧
    (r.status = "Aligned" ↔ r.missingInGov = [] ∧ r.missingInPublic = []) := by
  have heq := mem_diffRecords h
  have hc := status_cases r.resourceType (lookupD pub r.resourceType)
    (lookupD gov r.resourceType)
  rw [← heq] at hc
  have d1 : ("PublicAhead" : String) ≠ "GovAhead" := by decide
  have d2 : ("PublicAhead" : String) ≠ "Aligned" := by decide
  have d3 : ("GovAhead" : String) ≠ "Aligned" := by decide
  rcases hc with ⟨h1, hs⟩ | ⟨h1, h2, hs⟩ | ⟨h1, h2, hs⟩ <;> rw [hs]
  · exact ⟨Or.inl rfl,
      ⟨fun _ => h1, fun _ => rfl⟩,
      ⟨fun hcon => absurd hcon d1, fun hcc => absurd hcc.1 h1⟩,
      ⟨fun hcon => absurd hcon d2, fun hcc => absurd hcc.1 h1⟩⟩
  · exact ⟨Or.inr (Or.inl rfl),
      ⟨fun hcon => absurd hcon.symm d1, fun hne => absurd h1 hne⟩,
      ⟨fun _ => ⟨h1, h2⟩, fun _ => rfl⟩,
      ⟨fun hcon => absurd hcon d3, fun hcc => absurd hcc.2 h2⟩⟩
  · exact ⟨Or.inr (Or.inr rfl),
      ⟨fun hcon => absurd hcon.symm d2, fun hne => absurd h1 hne⟩,
      ⟨fun hcon => absurd hcon.symm d3, fun hcc => absurd h2 hcc.2⟩,
      ⟨fun _ => ⟨h1, h2⟩, fun _ => rfl⟩⟩

/-- Claim C2, witness at a concrete record of a concrete diff. -/
theorem C2_witness :
    ((mkRecord "A" ["2024-01-01"] []).status = "PublicAhead" ∨
      (mkRecord "A" ["2024-01-01"] []).status = "GovAhead" ∨
      (mkRecord "A" ["2024-01-01"] []).status = "Aligned") ∧
    ((mkRecord "A" ["2024-01-01"] []).status = "PublicAhead" ↔
      (mkRecord "A" ["2024-01-01"] []).missingInGov ≠ []) ∧
    ((mkRecord "A" ["2024-01-01"] []).status = "GovAhead" ↔
      (mkRecord "A" ["2024-01-01"] []).missingInGov = [] ∧
      (mkRecord "A" ["2024-01-01"] []).missingInPublic ≠ []) ∧
    ((mkRecord "A" ["2024-01-01"] []).status = "Aligned" ↔
      (mkRecord "A" ["2024-01-01"] []).missingInGov = [] ∧
      (mkRecord "A" ["2024-01-01"] []).missingInPublic = []) :=
  C2_claim [("A", ["2024-01-01"])] [] (mkRecord "A" ["2024-01-01"] []) (by decide)

/-- Claim C3: for every resource type in the union of the two indices, with
`P` the public version set and `G` the gov version set (empty if absent), the
record's `missingInGov` is exactly `P − G` and `missingInPublic` is exactly
`G − P`, each rendered as a strictly ascending lexically sorted sequence;
consequently every element of `missingInGov` lies in `P`. -/
theorem C3_claim (pub gov : List (String × List String)) (r : ParityRecord)
    (h : r ∈ diffRecords pub gov)
    (hP : (lookupD pub r.resourceType).Nodup)
    (hG : (lookupD gov r.resourceType).Nodup) :
    (∀ v, v ∈ r.missingInGov ↔
      v ∈ lookupD pub r.resourceType ∧ v ∉ lookupD gov r.resourceType) ∧
    (∀ v, v ∈ r.missingInPublic ↔
      v ∈ lookupD gov r.resourceType ∧ v ∉ lookupD pub r.resourceType) ∧
    List.Sorted lexLt r.missingInGov ∧
    List.Sorted lexLt r.missingInPublic ∧
    (∀ v ∈ r.missingInGov, v ∈ lookupD pub r.resourceType) := by
  have heq := mem_diffRecords h
  refine ⟨?_, ?_, ?_, ?_, ?_⟩
  · intro v
    rw [heq, mkRecord_missingInGov]
    exact mem_sortedStrings.trans mem_filter_not_mem
  · intro v
    rw [heq, mkRecord_missingInPublic]
    exact mem_sortedStrings.trans mem_filter_not_mem
  · rw [heq, mkRecord_missingInGov]
    exact sortedStrings_sorted_lt (hP.filter _)
  · rw [heq, mkRecord_missingInPublic]
    exact sortedStrings_sorted_lt (hG.filter _)
  · intro v hv
    rw [heq, mkRecord_missingInGov] at hv
    exact (mem_filter_not_mem.mp (mem_sortedStrings.mp hv)).1

/-- Claim C3, witness at a concrete record of a concrete diff. -/
theorem C3_witness :
    List.Sorted lexLt (mkRecord "A" ["2024-07-01", "2024-05-01"] ["2024-05-01"]).missingInGov ∧
    (("2024-07-01" : String) ∈
        (mkRecord "A" ["2024-07-01", "2024-05-01"] ["2024-05-01"]).missingInGov ↔
      ("2024-07-01" : String) ∈ lookupD [("A", ["2024-07-01", "2024-05-01"])]
          (mkRecord "A" ["2024-07-01", "2024-05-01"] ["2024-05-01"]).resourceType ∧
      ("2024-07-01" : String) ∉ lookupD [("A", ["2024-05-01"])]
          (mkRecord "A" ["2024-07-01", "2024-05-01"] ["2024-05-01"]).resourceType) :=
  ⟨(C3_claim [("A", ["2024-07-01", "2024-05-01"])] [("A", ["2024-05-01"])]
      (mkRecord "A" ["2024-07-01", "2024-05-01"] ["2024-05-01"])
      (by decide) (by decide) (by decide)).2.2.1,
    (C3_claim [("A", ["2024-07-01", "2024-05-01"])] [("A", ["2024-05-01"])]
      (mkRecord "A" ["2024-07-01", "2024-05-01"] ["2024-05-01"])
      (by decide) (by decide) (by decide)).1 "2024-07-01"⟩

/-- Claim C4: in every emitted record, `lagDaysPublicAhead` carries the value
`z` exactly when both sides have a latest version whose date-prefix parses,
and then `z` is the whole-day difference between the two parsed dates (which
is `0` for equal dates even when the raw tokens differ, and may be negative);
it is absent exactly when no such pair of parses exists — never `0` by
default. -/
theorem C4_claim (pub gov : List (String × List String)) (r : ParityRecord)
    (h : r ∈ diffRecords pub gov) :
    (∀ z : Int, r.lagDaysPublicAhead = some z ↔
      ∃ p g dp dg, r.latestPublic = some p ∧ r.latestGov = some g ∧
        parse_date p = some dp ∧ parse_date g = some dg ∧
        z = (dp : Int) - (dg : Int)) ∧
    (r.lagDaysPublicAhead = none ↔
      ¬ ∃ p g dp dg, r.latestPublic = some p ∧ r.latestGov = some g ∧
        parse_date p = some dp ∧ parse_date g = some dg) := by
  have heq := mem_diffRecords h
  rw [heq]
  simp only [mkRecord_latestPublic, mkRecord_latestGov]
  exact ⟨fun z => mkRecord_lag_some_iff _ _ _ z, mkRecord_lag_none_iff _ _ _⟩

/-- Claim C4, witness: the end-to-end scenario of the spec, 61 whole days of
lag. -/
theorem C4_witness :
    (mkRecord "A" ["2024-07-01", "2024-05-01"] ["2024-05-01"]).lagDaysPublicAhead =
      some 61 :=
  ((C4_claim [("A", ["2024-07-01", "2024-05-01"])] [("A", ["2024-05-01"])]
      (mkRecord "A" ["2024-07-01", "2024-05-01"] ["2024-05-01"]) (by decide)).1 61).mpr
    ⟨"2024-07-01", "2024-05-01", toDays 2024 7 1, toDays 2024 5 1,
      by decide, by decide, by decide, by decide, by decide⟩

/-- Claim C5, counterexample: the unparsable token `bogus` receives the same
minimum key as the parseable token `0001-01-01` (which parses exactly to
`datetime.min`), so with iteration order putting `bogus` last it wins
latest-version selection over a two-element set although it is not the sole
element — refuting both "sorts before every parseable version" and "wins only
if it is the sole element". -/
theorem C5_counterexample :
    latest_version ["0001-01-01", "bogus"] = some "bogus" ∧
    parse_date "bogus" = none ∧
    parse_date "0001-01-01" = some datetimeMin ∧
    ["0001-01-01", "bogus"].length ≠ 1 := by
  decide

/-- Claim C5, amended: `latest_version` is total — an element whose
date-prefix fails to parse is keyed with the minimum temporal value
`datetime.min` and therefore sorts before every version whose date is
strictly after 0001-01-01; it can win selection only when every element of
the set has the minimum key, i.e. every element either fails to parse or
parses exactly to 0001-01-01 (the sole-element set being the common special
case). -/
theorem C5_claim (l : List String) (v : String) (h : latest_version l = some v)
    (hv : parse_date v = none) :
    ∀ w ∈ l, sortKey w = datetimeMin := by
  intro w hw
  have h1 := latest_max h w hw
  have h2 := sortKey_ge_min w
  have h3 : sortKey v = datetimeMin := sortKey_of_fail hv
  omega

/-- Claim C5, witness: the sole-element unparsable set. -/
theorem C5_witness : sortKey "bogus" = datetimeMin :=
  C5_claim ["bogus"] "bogus" (by decide) (by decide) "bogus" (by decide)

/-- Claim C6, counterexample: two representations of the same input version
set (equal as sets, differing only in iteration order) produce different diff
outputs — the latest-version tokens differ — so two runs over identical
input documents are not guaranteed byte-identical output (set iteration
order in CPython is hash-randomised per process; the emitted `generatedUtc`
timestamp likewise differs between runs). -/
theorem C6_counterexample :
    List.Perm ["2024-01-01", "2024-01-01-preview"] ["2024-01-01-preview", "2024-01-01"] ∧
    ["2024-01-01", "2024-01-01-preview"].Nodup ∧
    ["2024-01-01-preview", "2024-01-01"].Nodup ∧
    diffRecords [("A", ["2024-01-01", "2024-01-01-preview"])] [("A", ["2023-01-01"])] ≠
      diffRecords [("A", ["2024-01-01-preview", "2024-01-01"])] [("A", ["2023-01-01"])] := by
  decide

/-- Claim C6, amended: for fixed set-iteration orders the Differ is a pure
function of its inputs, and records are emitted in strictly ascending
case-sensitive code-point lexical order of resource-type name (hence with no
duplicate resource types); byte-identical reruns hold only relative to fixed
iteration orders and modulo the `generatedUtc` timestamp. -/
theorem C6_claim (pub gov : List (String × List String)) :
    List.Sorted lexLt ((diffRecords pub gov).map (fun r => r.resourceType)) ∧
    ((diffRecords pub gov).map (fun r => r.resourceType)).Nodup := by
  have hnd : ((pub.map Prod.fst ++ gov.map Prod.fst).dedup).Nodup := List.nodup_dedup _
  rw [diffRecords_types]
  exact ⟨sortedStrings_sorted_lt hnd, sortedStrings_nodup hnd⟩

/-- Claim C6, witness of the amended theorem at a concrete pair of maps. -/
theorem C6_witness :
    List.Sorted lexLt ((diffRecords [("B", ["2024-01-01"])] [("A", ["2023-01-01"])]).map
      (fun r => r.resourceType)) :=
  (C6_claim [("B", ["2024-01-01"])] [("A", ["2023-01-01"])]).1

/-- Claim C7, counterexample: the token `2024-1-1` — whose leading component
is not a zero-padded `YYYY-MM-DD` string — is nevertheless parsed
successfully (CPython `%m` and `%d` accept one-digit fields), so parse does
not fail exactly on non-`YYYY-MM-DD` leading components. -/
theorem C7_counterexample :
    parse_date "2024-1-1" = some (toDays 2024 1 1) ∧
    isSpecYYYYMMDD (takeBeforeMarker previewMarker "2024-1-1".toList) = false := by
  decide

/-- Claim C7, amended: `parse` is a pure total function; it succeeds exactly
when the leading component (the substring before the first `-preview`
marker, else the whole token) matches the liberal shape a 4-digit year,
dash, 1-2-digit month, dash, 1-2-digit (or space-then-digit) day denoting a
valid calendar date, returning that date's ordinal; in particular every
strict `YYYY-MM-DD` calendar date still parses. -/
theorem C7_claim (s : String) (n : Nat) :
    (parse_date s = some n ↔
      ∃ y m d : Nat, LiberalDate (takeBeforeMarker previewMarker s.toList) y m d ∧
        n = toDays y m d) ∧
    (isSpecYYYYMMDD (takeBeforeMarker previewMarker s.toList) = true →
      parse_date s ≠ none) := by
  constructor
  · constructor
    · exact parse_date_sound
    · rintro ⟨y, m, d, hld, rfl⟩
      exact parse_date_complete hld
  · exact isSpec_parse

/-- Claim C7, witness of the amended theorem at a concrete token. -/
theorem C7_witness : parse_date "2024-03-05" ≠ none :=
  (C7_claim "2024-03-05" (toDays 2024 3 5)).2 (by decide)

theorem mapLookup_empty_foldl (enum : List String → List String) :
    ∀ (items : List RTEntry) (m : List (String × List String)),
      mapLookup m "" = none →
      mapLookup (items.foldl (toMapStep enum) m) "" = none := by
  intro items
  induction items with
  | nil => intro m hm; exact hm
  | cons it rest ih =>
    intro m hm
    rw [List.foldl_cons]
    apply ih
    unfold toMapStep
    cases hrt : it.resourceType with
    | none => exact hm
    | some rt =>
      simp only []
      by_cases h0 : rt ≠ ""
      · rw [if_pos h0, mapLookup_upsert, if_neg (fun hc => h0 hc.symm)]
        exact hm
      · rw [if_neg h0]
        exact hm

/-- Claim C8, counterexample: two entries share the non-empty name `A`; the
first kept entry's versions are silently overwritten by the second, so its
key does not map to the set of its own `apiVersions` — the entry is
effectively dropped, refuting "no other entries are dropped". -/
theorem C8_counterexample :
    mapLookup (to_map (fun l => l.dedup)
      [⟨some "A", ["1"]⟩, ⟨some "A", ["2"]⟩]) "A" = some ["2"] ∧
    (⟨some "A", ["1"]⟩ : RTEntry).resourceType = some "A" ∧
    ("1" : String) ∈ (⟨some "A", ["1"]⟩ : RTEntry).apiVersions ∧
    ("1" : String) ∉ (["2"] : List String) := by
  decide

/-- Claim C8, amended: entries with an absent or empty resource-type name are
dropped silently (the key `""` never appears); for every non-empty name `k`
the built index maps `k` to the deduplicated version set of the LAST entry
named `k` (earlier duplicate entries are overwritten); every key present
stems from some entry with that name, and every stored value is a
duplicate-free list with the same members as that entry's `apiVersions`. -/
theorem C8_claim (enum : List String → List String)
    (henum : ∀ l, (enum l).Nodup ∧ ∀ v, v ∈ enum l ↔ v ∈ l)
    (items : List RTEntry) (k : String) (hk : k ≠ "") :
    mapLookup (to_map enum items) k =
      ((items.filter (fun it => it.resourceType == some k)).getLast?).map
        (fun it => enum it.apiVersions) ∧
    (∀ vs, mapLookup (to_map enum items) k = some vs →
      vs.Nodup ∧ ∃ it ∈ items, it.resourceType = some k ∧
        ∀ v, v ∈ vs ↔ v ∈ it.apiVersions) ∧
    mapLookup (to_map enum items) "" = none := by
  have hgo := to_map_go enum k hk items []
  have hchar : mapLookup (to_map enum items) k =
      ((items.filter (fun it => it.resourceType == some k)).getLast?).map
        (fun it => enum it.apiVersions) := by
    rw [show to_map enum items = items.foldl (toMapStep enum) [] from rfl, hgo]
    cases (items.filter (fun it => it.resourceType == some k)).getLast? with
    | none => rfl
    | some it => rfl
  refine ⟨hchar, ?_, mapLookup_empty_foldl enum items [] rfl⟩
  intro vs hvs
  rw [hchar] at hvs
  cases hlast : (items.filter (fun it => it.resourceType == some k)).getLast? with
  | none =>
    rw [hlast] at hvs
    simp at hvs
  | some it =>
    rw [hlast] at hvs
    simp only [Option.map_some', Option.some.injEq] at hvs
    subst hvs
    have hmem := getLast?_mem hlast
    have hflt := List.mem_filter.mp hmem
    refine ⟨(henum it.apiVersions).1, it, hflt.1, ?_, (henum it.apiVersions).2⟩
    simpa using hflt.2

/-- Claim C8, witness of the amended theorem: a single entry with duplicate
versions is stored deduplicated under its name. -/
theorem C8_witness :
    mapLookup (to_map (fun l => l.dedup) [⟨some "B", ["x", "x"]⟩]) "B" =
      ((([⟨some "B", ["x", "x"]⟩] : List RTEntry).filter
        (fun it => it.resourceType == some "B")).getLast?).map
        (fun it => List.dedup it.apiVersions) :=
  (C8_claim (fun l => l.dedup)
    (fun l => ⟨List.nodup_dedup l, fun _ => List.mem_dedup⟩)
    [⟨some "B", ["x", "x"]⟩] "B" (by decide)).1

/-- Claim C9: the code resolves the spec's open question by conditionally
computing lag for `GovAhead` rows — whenever both latest versions exist and
both parse, `lagDaysPublicAhead` is populated with the day difference, and
for a `GovAhead` row that difference is zero or negative. -/
theorem C9_claim (pub gov : List (String × List String)) (r : ParityRecord)
    (h : r ∈ diffRecords pub gov) (p g : String) (dp dg : Nat)
    (h1 : r.latestPublic = some p) (h2 : r.latestGov = some g)
    (h3 : parse_date p = some dp) (h4 : parse_date g = some dg) :
    r.lagDaysPublicAhead = some ((dp : Int) - (dg : Int)) ∧
    (r.status = "GovAhead" → (dp : Int) - (dg : Int) ≤ 0) := by
  have heq := mem_diffRecords h
  have hp : latest_version (lookupD pub r.resourceType) = some p := by
    rw [heq, mkRecord_latestPublic] at h1
    exact h1
  have hg : latest_version (lookupD gov r.resourceType) = some g := by
    rw [heq, mkRecord_latestGov] at h2
    exact h2
  constructor
  · rw [heq]
    exact mkRecord_lag_of_parse hp hg h3 h4
  · intro hstat
    rw [heq] at hstat
    rcases status_cases r.resourceType (lookupD pub r.resourceType)
        (lookupD gov r.resourceType) with ⟨hmg, hs⟩ | ⟨hmg, hmp, hs⟩ | ⟨hmg, hmp, hs⟩
    · rw [hs] at hstat
      exact absurd hstat (by decide)
    · have hsub : ∀ v ∈ lookupD pub r.resourceType, v ∈ lookupD gov r.resourceType := by
        intro v hv
        by_contra hvg
        have hvmem : v ∈ (mkRecord r.resourceType (lookupD pub r.resourceType)
            (lookupD gov r.resourceType)).missingInGov := by
          rw [mkRecord_missingInGov]
          exact mem_sortedStrings.mpr (mem_filter_not_mem.mpr ⟨hv, hvg⟩)
        rw [hmg] at hvmem
        simp at hvmem
      have hpmem : p ∈ lookupD pub r.resourceType := latest_mem hp
      have hgmax := latest_max hg p (hsub p hpmem)
      rw [sortKey_of_parse h3, sortKey_of_parse h4] at hgmax
      omega
    · rw [hs] at hstat
      exact absurd hstat (by decide)

/-- Claim C9, witness: the spec's scenario 2 yields a negative lag for a
`GovAhead` row. -/
theorem C9_witness :
    ((toDays 2023 1 1 : Nat) : Int) - ((toDays 2023 6 1 : Nat) : Int) ≤ 0 :=
  (C9_claim [("A", ["2023-01-01"])] [("A", ["2023-01-01", "2023-06-01"])]
    (mkRecord "A" ["2023-01-01"] ["2023-01-01", "2023-06-01"])
    (by decide) "2023-01-01" "2023-06-01" (toDays 2023 1 1) (toDays 2023 6 1)
    (by decide) (by decide) (by decide) (by decide)).2 (by decide)

/-- Claim C10: `latest_version` of a non-empty set returns an element of that
set; hence in every emitted record `latestPublic` is a member of the public
version set and `latestGov` of the gov version set, and each is present
whenever the corresponding set is non-empty. -/
theorem C10_claim (pub gov : List (String × List String)) (r : ParityRecord)
    (h : r ∈ diffRecords pub gov) :
    (∀ v, r.latestPublic = some v → v ∈ lookupD pub r.resourceType) ∧
    (∀ v, r.latestGov = some v → v ∈ lookupD gov r.resourceType) ∧
    (lookupD pub r.resourceType ≠ [] → r.latestPublic ≠ none) ∧
    (lookupD gov r.resourceType ≠ [] → r.latestGov ≠ none) := by
  have heq := mem_diffRecords h
  refine ⟨?_, ?_, ?_, ?_⟩
  · intro v hv
    rw [heq, mkRecord_latestPublic] at hv
    exact latest_mem hv
  · intro v hv
    rw [heq, mkRecord_latestGov] at hv
    exact latest_mem hv
  · intro hne hcon
    rw [heq, mkRecord_latestPublic] at hcon
    obtain ⟨w, hw⟩ := latest_isSome hne
    rw [hw] at hcon
    exact Option.noConfusion hcon
  · intro hne hcon
    rw [heq, mkRecord_latestGov] at hcon
    obtain ⟨w, hw⟩ := latest_isSome hne
    rw [hw] at hcon
    exact Option.noConfusion hcon

/-- Claim C10, witness: the selected latest public version is a member of the
public version set. -/
theorem C10_witness :
    ("2024-01-01" : String) ∈ lookupD [("A", ["2024-01-01"])]
      (mkRecord "A" ["2024-01-01"] []).resourceType :=
  (C10_claim [("A", ["2024-01-01"])] [] (mkRecord "A" ["2024-01-01"] [])
    (by decide)).1 "2024-01-01" (by decide)
